import Mathlib

/-!
Shallow embedding of the `rpv` byte pump (src/main.rs) and proofs about it.

The program copies standard input to standard output with one of two
strategies, `splice_copy` (kernel zero-copy transfer) and `rw_copy`
(user-space read/write with a reusable buffer), both advancing a shared
atomic byte counter that a background `Reporter` thread polls once per
second to print a throughput line.

Modelling choices:
* A stream's content is a `List Nat` of bytes (byte values are opaque here,
  no arithmetic is done on them).
* The operating system / peer behaviour of each I/O call (`read`, `write`,
  `splice`) is modelled by a finite response schedule (`List Resp`): the
  i-th consumed entry decides the i-th call's result.  `Resp.ok n` means the
  call reports `n` bytes, clamped by the model to what the call may legally
  return (`read`/`splice` never return more than the buffer/request size or
  the bytes remaining; `write` never returns more than the slice it was
  given, per the `io::Write` contract).  `Resp.err e` means the call fails
  with OS error code `e`.  An exhausted schedule stands for the fully
  cooperative environment: reads fill the buffer, writes accept everything.
* The shared `AtomicU64` counter is a `Nat`; `fetch_add` is addition.  The
  state also carries ghost instrumentation that the Rust program does not
  store but that its execution determines: the number of I/O calls issued
  and the list of counter values after each `fetch_add`, so that claims
  about call counts and counter evolution can be stated.
* Rust's slice indexing `buffer[offset..offset + read]` is bounds checked;
  the out-of-bounds panic is modelled by the `panicked` outcome.
-/

namespace Rpv

/-- Environment response to one I/O call: the call reports `n` bytes, or
fails with OS error code `e`. -/
inductive Resp where
  | ok (n : Nat)
  | err (e : Nat)
deriving DecidableEq

/-- A response that reports at least one byte (and is not an error). -/
def Resp.pos : Resp → Bool
  | .ok n => decide (1 ≤ n)
  | .err _ => false

/-- State threaded through a copy run: the bytes delivered to Output so
far, the shared byte counter, and ghost instrumentation (numbers of read /
write / splice calls issued, and the counter value after each `fetch_add`). -/
structure St where
  out : List Nat
  counter : Nat
  readCalls : Nat
  writeCalls : Nat
  spliceCalls : Nat
  trace : List Nat
deriving DecidableEq

/-- Initial state: nothing written, counter at `c0`, no calls issued. -/
def initSt (c0 : Nat) : St :=
  { out := [], counter := c0, readCalls := 0, writeCalls := 0,
    spliceCalls := 0, trace := [] }

/-- Result of the inner write loop of `rw_copy`: success (with the
unconsumed write schedule), an I/O error, or a slice-bounds panic. -/
inductive WOut where
  | ok (wsched : List Resp) (s : St)
  | ioError (e : Nat) (s : St)
  | panicked (s : St)
deriving DecidableEq

/-- Result of a whole copy run: success, I/O error, or panic; each carries
the unread remainder of Input and the final state. -/
inductive Outcome where
  | ok (inp : List Nat) (s : St)
  | ioError (e : Nat) (inp : List Nat) (s : St)
  | panicked (inp : List Nat) (s : St)
deriving DecidableEq

/-- Final state of an outcome. -/
def Outcome.st : Outcome → St
  | .ok _ s => s
  | .ioError _ _ s => s
  | .panicked _ s => s

/-- Whether the run ended in a slice-bounds panic. -/
def Outcome.isPanic : Outcome → Bool
  | .panicked _ _ => true
  | _ => false

/-- Final state of an inner-loop result. -/
def WOut.st : WOut → St
  | .ok _ s => s
  | .ioError _ s => s
  | .panicked s => s

/-- Whether the inner loop ended in a slice-bounds panic. -/
def WOut.isPanic : WOut → Bool
  | .panicked _ => true
  | _ => false

/-- The counter evolution recorded in a state is sound: the values after
the successive `fetch_add`s never decrease, starting from 0, and the last
recorded value is the current counter (trivially true of a fresh state
with counter 0, and preserved by both copy strategies). -/
def TraceInv (s : St) : Prop :=
  List.Chain' (· ≤ ·) (0 :: s.trace) ∧ s.trace.getLastD 0 = s.counter

/-- The sub-slice `buffer[offset..offset + len]` (as a value; the bounds
check of the Rust indexing is performed at the use site). -/
def slice (buffer : List Nat) (offset len : Nat) : List Nat :=
  (buffer.drop offset).take len

/-- The inner loop of `rw_copy` (src/main.rs lines 130-138):
`while read > 0 { let written = output.write(&buffer[offset..offset + read])?;
offset += written; read -= written; counter.fetch_add(written, Relaxed); }`.
Each write call consumes one schedule entry; `written` is clamped to `read`
(the `io::Write` contract: a write never reports more than the slice
length).  An exhausted schedule is the cooperative environment: the write
accepts the whole slice, after which `read = 0` ends the loop. -/
def writeLoop (buffer : List Nat) (offset read : Nat) (wsched : List Resp)
    (s : St) : WOut :=
  if read = 0 then .ok wsched s
  else if buffer.length < offset + read then .panicked s
  else
    match wsched with
    | .err e :: _ => .ioError e { s with writeCalls := s.writeCalls + 1 }
    | .ok n :: rest =>
      let written := min n read
      writeLoop buffer (offset + written) (read - written) rest
        { s with
          out := s.out ++ slice buffer offset written,
          counter := s.counter + written,
          writeCalls := s.writeCalls + 1,
          trace := s.trace ++ [s.counter + written] }
    | [] =>
      .ok []
        { s with
          out := s.out ++ slice buffer offset read,
          counter := s.counter + read,
          writeCalls := s.writeCalls + 1,
          trace := s.trace ++ [s.counter + read] }

/-- The loop of `rw_copy` (src/main.rs lines 123-139): read up to the
buffer size from Input (a read reports at most the buffer length and at
most the bytes remaining), break successfully on a zero-length read, else
flush the chunk through `writeLoop` and continue.  An exhausted read
schedule is the cooperative environment: the read fills the buffer. -/
def rwLoop (chunkSize : Nat) (buffer inp : List Nat)
    (rsched wsched : List Resp) (s : St) : Outcome :=
  match rsched with
  | .err e :: _ => .ioError e inp { s with readCalls := s.readCalls + 1 }
  | .ok n :: rest =>
    let k := min n (min chunkSize inp.length)
    let buffer2 := inp.take k ++ buffer.drop k
    let s1 := { s with readCalls := s.readCalls + 1 }
    if hk : k = 0 then .ok (inp.drop k) s1
    else
      match writeLoop buffer2 0 k wsched s1 with
      | .ok wsched2 s2 => rwLoop chunkSize buffer2 (inp.drop k) rest wsched2 s2
      | .ioError e s2 => .ioError e (inp.drop k) s2
      | .panicked s2 => .panicked (inp.drop k) s2
  | [] =>
    let k := min chunkSize inp.length
    let buffer2 := inp.take k ++ buffer.drop k
    let s1 := { s with readCalls := s.readCalls + 1 }
    if hk : k = 0 then .ok (inp.drop k) s1
    else
      match writeLoop buffer2 0 k wsched s1 with
      | .ok wsched2 s2 => rwLoop chunkSize buffer2 (inp.drop k) [] wsched2 s2
      | .ioError e s2 => .ioError e (inp.drop k) s2
      | .panicked s2 => .panicked (inp.drop k) s2
termination_by (rsched.length, inp.length)
decreasing_by
  · exact Prod.Lex.left _ _ (by simp)
  · have hk1 : 1 ≤ min chunkSize inp.length := Nat.one_le_iff_ne_zero.mpr hk
    exact Prod.Lex.right _ (by
      have := Nat.le_trans hk1 (Nat.min_le_right _ _)
      simp [Nat.sub_lt (Nat.lt_of_lt_of_le Nat.zero_lt_one this)]
      omega)

/-- `rw_copy` (src/main.rs lines 112-140): allocate a zeroed buffer of
`chunkSize` bytes and run the read/write loop from a fresh state with the
shared counter at `c0` (the program starts it at 0). -/
def rw_copy (inp : List Nat) (rsched wsched : List Resp)
    (c0 chunkSize : Nat) : Outcome :=
  rwLoop chunkSize (List.replicate chunkSize 0) inp rsched wsched (initSt c0)

/-- The loop of `splice_copy` (src/main.rs lines 101-107):
`loop { let written = splice(fd_in, fd_out, chunk_size)?; if written == 0
{ break; } counter.fetch_add(written as u64, Relaxed); }`.  The splice
primitive moves up to `chunkSize` bytes straight from Input to Output (at
most the bytes remaining); a zero-length transfer breaks with success; an
error aborts.  An exhausted schedule is the cooperative environment: the
splice moves as much as it can. -/
def spliceLoop (chunkSize : Nat) (inp : List Nat) (sched : List Resp)
    (s : St) : Outcome :=
  match sched with
  | .err e :: _ => .ioError e inp { s with spliceCalls := s.spliceCalls + 1 }
  | .ok n :: rest =>
    let written := min n (min chunkSize inp.length)
    let s1 := { s with spliceCalls := s.spliceCalls + 1 }
    if hw : written = 0 then .ok inp s1
    else
      spliceLoop chunkSize (inp.drop written) rest
        { s1 with
          out := s1.out ++ inp.take written,
          counter := s1.counter + written,
          trace := s1.trace ++ [s1.counter + written] }
  | [] =>
    let written := min chunkSize inp.length
    let s1 := { s with spliceCalls := s.spliceCalls + 1 }
    if hw : written = 0 then .ok inp s1
    else
      spliceLoop chunkSize (inp.drop written) []
        { s1 with
          out := s1.out ++ inp.take written,
          counter := s1.counter + written,
          trace := s1.trace ++ [s1.counter + written] }
termination_by (sched.length, inp.length)
decreasing_by
  · exact Prod.Lex.left _ _ (by simp)
  · have hk1 : 1 ≤ min chunkSize inp.length := Nat.one_le_iff_ne_zero.mpr hw
    exact Prod.Lex.right _ (by
      have := Nat.le_trans hk1 (Nat.min_le_right _ _)
      simp [Nat.sub_lt (Nat.lt_of_lt_of_le Nat.zero_lt_one this)]
      omega)

/-- `splice_copy` (src/main.rs lines 88-110): run the splice loop from a
fresh state with the shared counter at `c0`. -/
def splice_copy (inp : List Nat) (sched : List Resp)
    (c0 chunkSize : Nat) : Outcome :=
  spliceLoop chunkSize inp sched (initSt c0)

/-- Reporter-local state (src/main.rs lines 24-25): the counter value
observed at the end of the previous tick, and the number of whole ticks
elapsed since that value last changed. -/
structure RepState where
  last : Nat
  secs : Nat
deriving DecidableEq

/-- Initial reporter state (src/main.rs lines 24-25): `last = 0`, `secs = 1`. -/
def reporterInit : RepState :=
  { last := 0, secs := 1 }

/-- One tick of the Reporter loop body (src/main.rs lines 27-36), given the
counter value `count` loaded at the start of the tick.  Returns the new
reporter state and, when a line was rendered, the rate (in MiB/s) printed
on it; the u64 subtraction `count - last` is truncated subtraction (the
counter is monotone, so in every reachable state `last ≤ count`), and the
rate is the exact rational the code's floating-point expression
approximates. -/
def reporterTick (st : RepState) (count : Nat) : RepState × Option ℚ :=
  if count ≠ st.last then
    (( { last := count, secs := 1 } : RepState),
      some (((count - st.last : Nat) : ℚ) / 1024 / 1024 / (st.secs : ℚ)))
  else
    ({ st with secs := st.secs + 1 }, none)

/-! ### Basic facts about slices and traces -/

theorem slice_length (buffer : List Nat) (offset len : Nat)
    (h : offset + len ≤ buffer.length) : (slice buffer offset len).length = len := by
  simp only [slice, List.length_take, List.length_drop]
  omega

theorem slice_split (buffer : List Nat) (o w r : Nat) (hw : w ≤ r) :
    slice buffer o w ++ slice buffer (o + w) (r - w) = slice buffer o r := by
  have h2 : w + (r - w) = r := by omega
  simp only [slice]
  rw [← List.drop_drop, ← List.take_add, h2]

theorem traceInv_snoc {tr : List Nat} {c : Nat} (w : Nat)
    (h : List.Chain' (· ≤ ·) (0 :: tr)) (hl : tr.getLastD 0 = c) :
    List.Chain' (· ≤ ·) (0 :: (tr ++ [c + w])) ∧ (tr ++ [c + w]).getLastD 0 = c + w := by
  constructor
  · have : (0 :: (tr ++ [c + w])) = (0 :: tr) ++ [c + w] := by simp
    rw [this, List.chain'_append]
    refine ⟨h, List.chain'_singleton _, ?_⟩
    intro x hx y hy
    simp only [List.head?_cons, Option.mem_def, Option.some.injEq] at hy
    subst hy
    rw [List.getLast?_cons] at hx
    have hx2 : x = tr.getLastD 0 := by
      rw [List.getLastD_eq_getLast?]
      cases htr : tr.getLast? with
      | none => simp [htr] at hx; simp [hx, Option.getD]
      | some z => simp [htr] at hx; simp [hx, Option.getD]
    omega
  · exact List.getLastD_concat _ _ _

/-! ### Step equations for the three loops -/

theorem writeLoop_zero (buffer : List Nat) (offset : Nat) (wsched : List Resp) (s : St) :
    writeLoop buffer offset 0 wsched s = .ok wsched s := by
  rw [writeLoop.eq_def]
  simp

theorem writeLoop_oob (buffer : List Nat) (offset read : Nat) (wsched : List Resp) (s : St)
    (hr : read ≠ 0) (hb : buffer.length < offset + read) :
    writeLoop buffer offset read wsched s = .panicked s := by
  rw [writeLoop.eq_def, if_neg hr, if_pos hb]

theorem writeLoop_nil (buffer : List Nat) (offset read : Nat) (s : St)
    (hr : read ≠ 0) (hb : ¬ buffer.length < offset + read) :
    writeLoop buffer offset read [] s =
      .ok [] { s with
        out := s.out ++ slice buffer offset read,
        counter := s.counter + read,
        writeCalls := s.writeCalls + 1,
        trace := s.trace ++ [s.counter + read] } := by
  rw [writeLoop, if_neg hr, if_neg hb]

theorem writeLoop_err (buffer : List Nat) (offset read : Nat) (e : Nat)
    (rest : List Resp) (s : St) (hr : read ≠ 0) (hb : ¬ buffer.length < offset + read) :
    writeLoop buffer offset read (.err e :: rest) s =
      .ioError e { s with writeCalls := s.writeCalls + 1 } := by
  rw [writeLoop.eq_def, if_neg hr, if_neg hb]

theorem writeLoop_ok (buffer : List Nat) (offset read n : Nat)
    (rest : List Resp) (s : St) (hr : read ≠ 0) (hb : ¬ buffer.length < offset + read) :
    writeLoop buffer offset read (.ok n :: rest) s =
      writeLoop buffer (offset + min n read) (read - min n read) rest
        { s with
          out := s.out ++ slice buffer offset (min n read),
          counter := s.counter + min n read,
          writeCalls := s.writeCalls + 1,
          trace := s.trace ++ [s.counter + min n read] } := by
  rw [writeLoop.eq_def, if_neg hr, if_neg hb]

theorem rwLoop_err (chunkSize : Nat) (buffer inp : List Nat) (e : Nat)
    (rest wsched : List Resp) (s : St) :
    rwLoop chunkSize buffer inp (.err e :: rest) wsched s =
      .ioError e inp { s with readCalls := s.readCalls + 1 } := by
  rw [rwLoop.eq_def]

theorem rwLoop_ok_zero (chunkSize : Nat) (buffer inp : List Nat) (n : Nat)
    (rest wsched : List Resp) (s : St) (hk : min n (min chunkSize inp.length) = 0) :
    rwLoop chunkSize buffer inp (.ok n :: rest) wsched s =
      .ok inp { s with readCalls := s.readCalls + 1 } := by
  rw [rwLoop.eq_def]
  simp [hk]

theorem rwLoop_ok_step (chunkSize : Nat) (buffer inp : List Nat) (n : Nat)
    (rest wsched : List Resp) (s : St) (hk : min n (min chunkSize inp.length) ≠ 0) :
    rwLoop chunkSize buffer inp (.ok n :: rest) wsched s =
      (match writeLoop (inp.take (min n (min chunkSize inp.length)) ++
          buffer.drop (min n (min chunkSize inp.length))) 0
          (min n (min chunkSize inp.length)) wsched
          { s with readCalls := s.readCalls + 1 } with
        | .ok wsched2 s2 =>
          rwLoop chunkSize
            (inp.take (min n (min chunkSize inp.length)) ++
              buffer.drop (min n (min chunkSize inp.length)))
            (inp.drop (min n (min chunkSize inp.length))) rest wsched2 s2
        | .ioError e s2 => .ioError e (inp.drop (min n (min chunkSize inp.length))) s2
        | .panicked s2 => .panicked (inp.drop (min n (min chunkSize inp.length))) s2) := by
  rw [rwLoop.eq_def]
  simp [hk]

theorem rwLoop_nil_zero (chunkSize : Nat) (buffer inp : List Nat)
    (wsched : List Resp) (s : St) (hk : min chunkSize inp.length = 0) :
    rwLoop chunkSize buffer inp [] wsched s =
      .ok inp { s with readCalls := s.readCalls + 1 } := by
  rw [rwLoop.eq_def]
  simp [hk]

theorem rwLoop_nil_step (chunkSize : Nat) (buffer inp : List Nat)
    (wsched : List Resp) (s : St) (hk : min chunkSize inp.length ≠ 0) :
    rwLoop chunkSize buffer inp [] wsched s =
      (match writeLoop (inp.take (min chunkSize inp.length) ++
          buffer.drop (min chunkSize inp.length)) 0 (min chunkSize inp.length) wsched
          { s with readCalls := s.readCalls + 1 } with
        | .ok wsched2 s2 =>
          rwLoop chunkSize
            (inp.take (min chunkSize inp.length) ++ buffer.drop (min chunkSize inp.length))
            (inp.drop (min chunkSize inp.length)) [] wsched2 s2
        | .ioError e s2 => .ioError e (inp.drop (min chunkSize inp.length)) s2
        | .panicked s2 => .panicked (inp.drop (min chunkSize inp.length)) s2) := by
  rw [rwLoop.eq_def]
  simp [hk]

theorem spliceLoop_err (chunkSize : Nat) (inp : List Nat) (e : Nat)
    (rest : List Resp) (s : St) :
    spliceLoop chunkSize inp (.err e :: rest) s =
      .ioError e inp { s with spliceCalls := s.spliceCalls + 1 } := by
  rw [spliceLoop.eq_def]

theorem spliceLoop_ok_zero (chunkSize : Nat) (inp : List Nat) (n : Nat)
    (rest : List Resp) (s : St) (hw : min n (min chunkSize inp.length) = 0) :
    spliceLoop chunkSize inp (.ok n :: rest) s =
      .ok inp { s with spliceCalls := s.spliceCalls + 1 } := by
  rw [spliceLoop.eq_def]
  simp [hw]

theorem spliceLoop_ok_step (chunkSize : Nat) (inp : List Nat) (n : Nat)
    (rest : List Resp) (s : St) (hw : min n (min chunkSize inp.length) ≠ 0) :
    spliceLoop chunkSize inp (.ok n :: rest) s =
      spliceLoop chunkSize (inp.drop (min n (min chunkSize inp.length))) rest
        { s with
          spliceCalls := s.spliceCalls + 1,
          out := s.out ++ inp.take (min n (min chunkSize inp.length)),
          counter := s.counter + min n (min chunkSize inp.length),
          trace := s.trace ++ [s.counter + min n (min chunkSize inp.length)] } := by
  rw [spliceLoop.eq_def]
  simp [hw]

theorem spliceLoop_nil_zero (chunkSize : Nat) (inp : List Nat) (s : St)
    (hw : min chunkSize inp.length = 0) :
    spliceLoop chunkSize inp [] s =
      .ok inp { s with spliceCalls := s.spliceCalls + 1 } := by
  rw [spliceLoop.eq_def]
  simp [hw]

theorem spliceLoop_nil_step (chunkSize : Nat) (inp : List Nat) (s : St)
    (hw : min chunkSize inp.length ≠ 0) :
    spliceLoop chunkSize inp [] s =
      spliceLoop chunkSize (inp.drop (min chunkSize inp.length)) []
        { s with
          spliceCalls := s.spliceCalls + 1,
          out := s.out ++ inp.take (min chunkSize inp.length),
          counter := s.counter + min chunkSize inp.length,
          trace := s.trace ++ [s.counter + min chunkSize inp.length] } := by
  rw [spliceLoop.eq_def]
  simp [hw]

/-! ### The inner write loop of `rw_copy` -/

theorem writeLoop_pos (wsched : List Resp) : ∀ (buffer : List Nat) (offset read : Nat)
    (s : St), offset + read ≤ buffer.length → wsched.all Resp.pos = true →
    ∃ rest s2, writeLoop buffer offset read wsched s = .ok rest s2 ∧
      rest.all Resp.pos = true ∧
      s2.out = s.out ++ slice buffer offset read ∧
      s2.counter = s.counter + read ∧
      s2.writeCalls ≤ s.writeCalls + read ∧
      s2.readCalls = s.readCalls ∧ s2.spliceCalls = s.spliceCalls := by
  induction wsched with
  | nil =>
    intro buffer offset read s hb _
    by_cases hr : read = 0
    · subst hr
      refine ⟨[], s, ?_⟩
      simp [writeLoop, slice]
    · refine ⟨[], { s with
          out := s.out ++ slice buffer offset read,
          counter := s.counter + read,
          writeCalls := s.writeCalls + 1,
          trace := s.trace ++ [s.counter + read] }, ?_⟩
      rw [writeLoop, if_neg hr, if_neg (by omega)]
      refine ⟨rfl, rfl, rfl, rfl, by simp; omega, rfl, rfl⟩
  | cons r rest ih =>
    intro buffer offset read s hb hpos
    simp only [List.all_cons, Bool.and_eq_true] at hpos
    obtain ⟨hr1, hrest⟩ := hpos
    by_cases hr : read = 0
    · subst hr
      refine ⟨r :: rest, s, ?_⟩
      rw [writeLoop.eq_def, if_pos rfl]
      simp [slice, List.all_cons, hr1, hrest]
    · cases r with
      | err e => simp [Resp.pos] at hr1
      | ok n =>
        have hn : 1 ≤ n := by simpa [Resp.pos] using hr1
        have hw1 : 1 ≤ min n read := by omega
        have hwr : min n read ≤ read := Nat.min_le_right _ _
        obtain ⟨rest2, s2, heq, hp2, hout, hcnt, hwc, hrc, hsc⟩ :=
          ih buffer (offset + min n read) (read - min n read)
            { s with
              out := s.out ++ slice buffer offset (min n read),
              counter := s.counter + min n read,
              writeCalls := s.writeCalls + 1,
              trace := s.trace ++ [s.counter + min n read] }
            (by omega) hrest
        refine ⟨rest2, s2, ?_, hp2, ?_, ?_, ?_, ?_, ?_⟩
        · rw [writeLoop, if_neg hr, if_neg (by omega)]
          exact heq
        · rw [hout]
          simp only [List.append_assoc]
          rw [slice_split buffer offset (min n read) read hwr]
        · simp at hcnt; omega
        · simp at hwc; omega
        · simp at hrc; omega
        · simp at hsc; omega

theorem writeLoop_balance (wsched : List Resp) : ∀ (buffer : List Nat) (offset read : Nat)
    (s : St),
    ((writeLoop buffer offset read wsched s).st).counter + s.out.length
      = s.counter + ((writeLoop buffer offset read wsched s).st).out.length := by
  induction wsched with
  | nil =>
    intro buffer offset read s
    by_cases hr : read = 0
    · subst hr
      rw [writeLoop_zero]
      simp [WOut.st]
    · by_cases hb : buffer.length < offset + read
      · rw [writeLoop_oob _ _ _ _ _ hr hb]
        simp [WOut.st]
      · rw [writeLoop_nil _ _ _ _ hr hb]
        have h2 : (slice buffer offset read).length = read :=
          slice_length buffer offset read (by omega)
        simp [WOut.st, h2]
        omega
  | cons r rest ih =>
    intro buffer offset read s
    by_cases hr : read = 0
    · subst hr
      rw [writeLoop_zero]
      simp [WOut.st]
    · by_cases hb : buffer.length < offset + read
      · rw [writeLoop_oob _ _ _ _ _ hr hb]
        simp [WOut.st]
      · cases r with
        | err e =>
          rw [writeLoop_err _ _ _ _ _ _ hr hb]
          simp [WOut.st]
        | ok n =>
          rw [writeLoop_ok _ _ _ _ _ _ hr hb]
          have h2 : (slice buffer offset (min n read)).length = min n read :=
            slice_length buffer offset (min n read) (by omega)
          have h1 := ih buffer (offset + min n read) (read - min n read)
            { s with
              out := s.out ++ slice buffer offset (min n read),
              counter := s.counter + min n read,
              writeCalls := s.writeCalls + 1,
              trace := s.trace ++ [s.counter + min n read] }
          simp only [List.length_append, h2] at h1
          omega

theorem writeLoop_traceInv (wsched : List Resp) : ∀ (buffer : List Nat) (offset read : Nat)
    (s : St), TraceInv s → TraceInv ((writeLoop buffer offset read wsched s).st) := by
  induction wsched with
  | nil =>
    intro buffer offset read s hs
    by_cases hr : read = 0
    · subst hr
      rw [writeLoop_zero]
      exact hs
    · by_cases hb : buffer.length < offset + read
      · rw [writeLoop_oob _ _ _ _ _ hr hb]
        exact hs
      · rw [writeLoop_nil _ _ _ _ hr hb]
        exact traceInv_snoc read hs.1 hs.2
  | cons r rest ih =>
    intro buffer offset read s hs
    by_cases hr : read = 0
    · subst hr
      rw [writeLoop_zero]
      exact hs
    · by_cases hb : buffer.length < offset + read
      · rw [writeLoop_oob _ _ _ _ _ hr hb]
        exact hs
      · cases r with
        | err e =>
          rw [writeLoop_err _ _ _ _ _ _ hr hb]
          exact hs
        | ok n =>
          rw [writeLoop_ok _ _ _ _ _ _ hr hb]
          exact ih buffer (offset + min n read) (read - min n read) _
            (traceInv_snoc (min n read) hs.1 hs.2)

theorem writeLoop_calls (wsched : List Resp) : ∀ (buffer : List Nat) (offset read : Nat)
    (s : St) (rest2 : List Resp) (s2 : St),
    writeLoop buffer offset read wsched s = .ok rest2 s2 →
    s2.trace.length + s.writeCalls = s.trace.length + s2.writeCalls := by
  induction wsched with
  | nil =>
    intro buffer offset read s rest2 s2 h
    by_cases hr : read = 0
    · subst hr
      rw [writeLoop_zero] at h
      injection h with h1 h2
      subst h2
      omega
    · by_cases hb : buffer.length < offset + read
      · rw [writeLoop_oob _ _ _ _ _ hr hb] at h
        exact WOut.noConfusion h
      · rw [writeLoop_nil _ _ _ _ hr hb] at h
        injection h with h1 h2
        subst h2
        simp
        omega
  | cons r rest ih =>
    intro buffer offset read s rest2 s2 h
    by_cases hr : read = 0
    · subst hr
      rw [writeLoop_zero] at h
      injection h with h1 h2
      subst h2
      omega
    · by_cases hb : buffer.length < offset + read
      · rw [writeLoop_oob _ _ _ _ _ hr hb] at h
        exact WOut.noConfusion h
      · cases r with
        | err e =>
          rw [writeLoop_err _ _ _ _ _ _ hr hb] at h
          exact WOut.noConfusion h
        | ok n =>
          rw [writeLoop_ok _ _ _ _ _ _ hr hb] at h
          have h1 := ih _ _ _ _ _ _ h
          simp at h1
          omega

theorem writeLoop_noPanic (wsched : List Resp) : ∀ (buffer : List Nat) (offset read : Nat)
    (s : St), offset + read ≤ buffer.length →
    (writeLoop buffer offset read wsched s).isPanic = false := by
  induction wsched with
  | nil =>
    intro buffer offset read s hb
    by_cases hr : read = 0
    · subst hr
      rw [writeLoop_zero]
      rfl
    · rw [writeLoop_nil _ _ _ _ hr (by omega)]
      rfl
  | cons r rest ih =>
    intro buffer offset read s hb
    by_cases hr : read = 0
    · subst hr
      rw [writeLoop_zero]
      rfl
    · cases r with
      | err e =>
        rw [writeLoop_err _ _ _ _ _ _ hr (by omega)]
        rfl
      | ok n =>
        rw [writeLoop_ok _ _ _ _ _ _ hr (by omega)]
        exact ih buffer (offset + min n read) (read - min n read) _ (by omega)

/-! ### The outer loop of `rw_copy` -/

theorem rwLoop_pos (chunkSize : Nat) (hcs : 1 ≤ chunkSize) :
    ∀ (N : Nat) (rsched : List Resp) (inp : List Nat),
    rsched.length + inp.length ≤ N →
    ∀ (buffer : List Nat) (wsched : List Resp) (s : St),
    buffer.length = chunkSize →
    rsched.all Resp.pos = true → wsched.all Resp.pos = true →
    ∃ s2, rwLoop chunkSize buffer inp rsched wsched s = .ok [] s2 ∧
      s2.out = s.out ++ inp ∧ s2.counter = s.counter + inp.length := by
  intro N
  induction N with
  | zero =>
    intro rsched inp hm buffer wsched s hb hr hw
    have h1 : rsched = [] := by
      cases rsched with
      | nil => rfl
      | cons a l => simp at hm
    have h2 : inp = [] := by
      cases inp with
      | nil => rfl
      | cons a l => simp at hm
    subst h1; subst h2
    refine ⟨{ s with readCalls := s.readCalls + 1 }, ?_, by simp, by simp⟩
    rw [rwLoop_nil_zero _ _ _ _ _ (by simp)]
  | succ N ih =>
    intro rsched inp hm buffer wsched s hb hr hw
    cases rsched with
    | nil =>
      by_cases hk : min chunkSize inp.length = 0
      · have h2 : inp = [] := by
          have := Nat.min_eq_zero_iff.mp hk
          rcases this with h | h
          · omega
          · exact List.length_eq_zero.mp h
        subst h2
        refine ⟨{ s with readCalls := s.readCalls + 1 }, ?_, by simp, by simp⟩
        rw [rwLoop_nil_zero _ _ _ _ _ hk]
      · rw [rwLoop_nil_step _ _ _ _ _ hk]
        have hkc : min chunkSize inp.length ≤ chunkSize := Nat.min_le_left _ _
        have hki : min chunkSize inp.length ≤ inp.length := Nat.min_le_right _ _
        have hlen2 : (inp.take (min chunkSize inp.length) ++
            buffer.drop (min chunkSize inp.length)).length = chunkSize := by
          simp
          omega
        obtain ⟨rest2, s2, heq, hp2, hout, hcnt, _, _, _⟩ :=
          writeLoop_pos wsched
            (inp.take (min chunkSize inp.length) ++ buffer.drop (min chunkSize inp.length))
            0 (min chunkSize inp.length) { s with readCalls := s.readCalls + 1 }
            (by omega) hw
        rw [heq]
        obtain ⟨s3, heq3, hout3, hcnt3⟩ :=
          ih [] (inp.drop (min chunkSize inp.length)) (by simp; omega)
            (inp.take (min chunkSize inp.length) ++ buffer.drop (min chunkSize inp.length))
            rest2 s2 hlen2 (by simp) hp2
        refine ⟨s3, heq3, ?_, ?_⟩
        · rw [hout3, hout]
          have hsl : slice (inp.take (min chunkSize inp.length) ++
              buffer.drop (min chunkSize inp.length)) 0 (min chunkSize inp.length) =
              inp.take (min chunkSize inp.length) := by
            simp only [slice, List.drop_zero]
            exact List.take_left' (by simp only [List.length_take]; omega)
          rw [hsl]
          simp
        · rw [hcnt3, hcnt]
          simp
          omega
    | cons r rest =>
      simp only [List.all_cons, Bool.and_eq_true] at hr
      obtain ⟨hr1, hrest⟩ := hr
      cases r with
      | err e => simp [Resp.pos] at hr1
      | ok n =>
        have hn : 1 ≤ n := by simpa [Resp.pos] using hr1
        by_cases hk : min n (min chunkSize inp.length) = 0
        · have h2 : inp = [] := by
            rcases Nat.min_eq_zero_iff.mp hk with h | h
            · omega
            · rcases Nat.min_eq_zero_iff.mp h with h3 | h3
              · omega
              · exact List.length_eq_zero.mp h3
          subst h2
          refine ⟨{ s with readCalls := s.readCalls + 1 }, ?_, by simp, by simp⟩
          rw [rwLoop_ok_zero _ _ _ _ _ _ _ hk]
        · rw [rwLoop_ok_step _ _ _ _ _ _ _ hk]
          have hkc : min n (min chunkSize inp.length) ≤ chunkSize := by
            have := Nat.min_le_right n (min chunkSize inp.length)
            have := Nat.min_le_left chunkSize inp.length
            omega
          have hki : min n (min chunkSize inp.length) ≤ inp.length := by
            have := Nat.min_le_right n (min chunkSize inp.length)
            have := Nat.min_le_right chunkSize inp.length
            omega
          have hlen2 : (inp.take (min n (min chunkSize inp.length)) ++
              buffer.drop (min n (min chunkSize inp.length))).length = chunkSize := by
            simp
            omega
          obtain ⟨rest2, s2, heq, hp2, hout, hcnt, _, _, _⟩ :=
            writeLoop_pos wsched
              (inp.take (min n (min chunkSize inp.length)) ++
                buffer.drop (min n (min chunkSize inp.length)))
              0 (min n (min chunkSize inp.length)) { s with readCalls := s.readCalls + 1 }
              (by omega) hw
          rw [heq]
          obtain ⟨s3, heq3, hout3, hcnt3⟩ :=
            ih rest (inp.drop (min n (min chunkSize inp.length))) (by simp at hm ⊢; omega)
              (inp.take (min n (min chunkSize inp.length)) ++
                buffer.drop (min n (min chunkSize inp.length)))
              rest2 s2 hlen2 hrest hp2
          refine ⟨s3, heq3, ?_, ?_⟩
          · rw [hout3, hout]
            have hsl : slice (inp.take (min n (min chunkSize inp.length)) ++
                buffer.drop (min n (min chunkSize inp.length))) 0
                (min n (min chunkSize inp.length)) =
                inp.take (min n (min chunkSize inp.length)) := by
              simp only [slice, List.drop_zero]
              exact List.take_left' (by simp only [List.length_take]; omega)
            rw [hsl]
            simp
          · rw [hcnt3, hcnt]
            simp
            omega

/-! ### The loop of `splice_copy` -/

theorem spliceLoop_pos (chunkSize : Nat) (hcs : 1 ≤ chunkSize) :
    ∀ (N : Nat) (sched : List Resp) (inp : List Nat),
    sched.length + inp.length ≤ N →
    ∀ (s : St), sched.all Resp.pos = true →
    ∃ s2, spliceLoop chunkSize inp sched s = .ok [] s2 ∧
      s2.out = s.out ++ inp ∧ s2.counter = s.counter + inp.length := by
  intro N
  induction N with
  | zero =>
    intro sched inp hm s hp
    have h1 : sched = [] := by
      cases sched with
      | nil => rfl
      | cons a l => simp at hm
    have h2 : inp = [] := by
      cases inp with
      | nil => rfl
      | cons a l => simp at hm
    subst h1; subst h2
    refine ⟨{ s with spliceCalls := s.spliceCalls + 1 }, ?_, by simp, by simp⟩
    rw [spliceLoop_nil_zero _ _ _ (by simp)]
  | succ N ih =>
    intro sched inp hm s hp
    cases sched with
    | nil =>
      by_cases hk : min chunkSize inp.length = 0
      · have h2 : inp = [] := by
          rcases Nat.min_eq_zero_iff.mp hk with h | h
          · omega
          · exact List.length_eq_zero.mp h
        subst h2
        refine ⟨{ s with spliceCalls := s.spliceCalls + 1 }, ?_, by simp, by simp⟩
        rw [spliceLoop_nil_zero _ _ _ hk]
      · rw [spliceLoop_nil_step _ _ _ hk]
        have hki : min chunkSize inp.length ≤ inp.length := Nat.min_le_right _ _
        obtain ⟨s3, heq3, hout3, hcnt3⟩ :=
          ih [] (inp.drop (min chunkSize inp.length)) (by simp; omega) _ (by simp)
        refine ⟨s3, heq3, ?_, ?_⟩
        · rw [hout3]
          simp
        · rw [hcnt3]
          simp
          omega
    | cons r rest =>
      simp only [List.all_cons, Bool.and_eq_true] at hp
      obtain ⟨hr1, hrest⟩ := hp
      cases r with
      | err e => simp [Resp.pos] at hr1
      | ok n =>
        have hn : 1 ≤ n := by simpa [Resp.pos] using hr1
        by_cases hk : min n (min chunkSize inp.length) = 0
        · have h2 : inp = [] := by
            rcases Nat.min_eq_zero_iff.mp hk with h | h
            · omega
            · rcases Nat.min_eq_zero_iff.mp h with h3 | h3
              · omega
              · exact List.length_eq_zero.mp h3
          subst h2
          refine ⟨{ s with spliceCalls := s.spliceCalls + 1 }, ?_, by simp, by simp⟩
          rw [spliceLoop_ok_zero _ _ _ _ _ hk]
        · rw [spliceLoop_ok_step _ _ _ _ _ hk]
          have hki : min n (min chunkSize inp.length) ≤ inp.length := by
            have := Nat.min_le_right n (min chunkSize inp.length)
            have := Nat.min_le_right chunkSize inp.length
            omega
          obtain ⟨s3, heq3, hout3, hcnt3⟩ :=
            ih rest (inp.drop (min n (min chunkSize inp.length)))
              (by simp at hm ⊢; omega) _ hrest
          refine ⟨s3, heq3, ?_, ?_⟩
          · rw [hout3]
            simp
          · rw [hcnt3]
            simp
            omega

/-! ### Run-wide invariants: counter vs. bytes written, and the trace -/

theorem rwLoop_balance :
    ∀ (N : Nat) (rsched : List Resp) (inp : List Nat),
    rsched.length + inp.length ≤ N →
    ∀ (chunkSize : Nat) (buffer : List Nat) (wsched : List Resp) (s : St),
    ((rwLoop chunkSize buffer inp rsched wsched s).st).counter + s.out.length
      = s.counter + ((rwLoop chunkSize buffer inp rsched wsched s).st).out.length := by
  intro N
  induction N with
  | zero =>
    intro rsched inp hm chunkSize buffer wsched s
    have h1 : rsched = [] := by
      cases rsched with
      | nil => rfl
      | cons a l => simp at hm
    have h2 : inp = [] := by
      cases inp with
      | nil => rfl
      | cons a l => simp at hm
    subst h1; subst h2
    rw [rwLoop_nil_zero _ _ _ _ _ (by simp)]
    simp [Outcome.st]
  | succ N ih =>
    intro rsched inp hm chunkSize buffer wsched s
    cases rsched with
    | nil =>
      by_cases hk : min chunkSize inp.length = 0
      · rw [rwLoop_nil_zero _ _ _ _ _ hk]
        simp [Outcome.st]
      · rw [rwLoop_nil_step _ _ _ _ _ hk]
        have hwb := writeLoop_balance wsched
          (inp.take (min chunkSize inp.length) ++ buffer.drop (min chunkSize inp.length))
          0 (min chunkSize inp.length) { s with readCalls := s.readCalls + 1 }
        cases hw : writeLoop
            (inp.take (min chunkSize inp.length) ++ buffer.drop (min chunkSize inp.length))
            0 (min chunkSize inp.length) wsched
            { s with readCalls := s.readCalls + 1 } with
        | ok wsched2 s2 =>
          rw [hw] at hwb
          simp only [WOut.st] at hwb
          have ihr := ih [] (inp.drop (min chunkSize inp.length))
            (by simp; omega) chunkSize
            (inp.take (min chunkSize inp.length) ++ buffer.drop (min chunkSize inp.length))
            wsched2 s2
          simp only at hwb ihr ⊢
          omega
        | ioError e s2 =>
          rw [hw] at hwb
          simp only [WOut.st] at hwb
          simp only [Outcome.st] at hwb ⊢
          omega
        | panicked s2 =>
          rw [hw] at hwb
          simp only [WOut.st] at hwb
          simp only [Outcome.st] at hwb ⊢
          omega
    | cons r rest =>
      cases r with
      | err e =>
        rw [rwLoop_err]
        simp [Outcome.st]
      | ok n =>
        by_cases hk : min n (min chunkSize inp.length) = 0
        · rw [rwLoop_ok_zero _ _ _ _ _ _ _ hk]
          simp [Outcome.st]
        · rw [rwLoop_ok_step _ _ _ _ _ _ _ hk]
          have hwb := writeLoop_balance wsched
            (inp.take (min n (min chunkSize inp.length)) ++
              buffer.drop (min n (min chunkSize inp.length)))
            0 (min n (min chunkSize inp.length)) { s with readCalls := s.readCalls + 1 }
          cases hw : writeLoop
              (inp.take (min n (min chunkSize inp.length)) ++
                buffer.drop (min n (min chunkSize inp.length)))
              0 (min n (min chunkSize inp.length)) wsched
              { s with readCalls := s.readCalls + 1 } with
          | ok wsched2 s2 =>
            rw [hw] at hwb
            simp only [WOut.st] at hwb
            have ihr := ih rest (inp.drop (min n (min chunkSize inp.length)))
              (by simp at hm ⊢; omega) chunkSize
              (inp.take (min n (min chunkSize inp.length)) ++
                buffer.drop (min n (min chunkSize inp.length)))
              wsched2 s2
            simp only at hwb ihr ⊢
            omega
          | ioError e s2 =>
            rw [hw] at hwb
            simp only [WOut.st] at hwb
            simp only [Outcome.st] at hwb ⊢
            omega
          | panicked s2 =>
            rw [hw] at hwb
            simp only [WOut.st] at hwb
            simp only [Outcome.st] at hwb ⊢
            omega

theorem spliceLoop_balance :
    ∀ (N : Nat) (sched : List Resp) (inp : List Nat),
    sched.length + inp.length ≤ N →
    ∀ (chunkSize : Nat) (s : St),
    ((spliceLoop chunkSize inp sched s).st).counter + s.out.length
      = s.counter + ((spliceLoop chunkSize inp sched s).st).out.length := by
  intro N
  induction N with
  | zero =>
    intro sched inp hm chunkSize s
    have h1 : sched = [] := by
      cases sched with
      | nil => rfl
      | cons a l => simp at hm
    have h2 : inp = [] := by
      cases inp with
      | nil => rfl
      | cons a l => simp at hm
    subst h1; subst h2
    rw [spliceLoop_nil_zero _ _ _ (by simp)]
    simp [Outcome.st]
  | succ N ih =>
    intro sched inp hm chunkSize s
    cases sched with
    | nil =>
      by_cases hk : min chunkSize inp.length = 0
      · rw [spliceLoop_nil_zero _ _ _ hk]
        simp [Outcome.st]
      · rw [spliceLoop_nil_step _ _ _ hk]
        have hki : min chunkSize inp.length ≤ inp.length := Nat.min_le_right _ _
        have ihr := ih [] (inp.drop (min chunkSize inp.length)) (by simp; omega) chunkSize
          { s with
            spliceCalls := s.spliceCalls + 1,
            out := s.out ++ inp.take (min chunkSize inp.length),
            counter := s.counter + min chunkSize inp.length,
            trace := s.trace ++ [s.counter + min chunkSize inp.length] }
        have hlt : (inp.take (min chunkSize inp.length)).length = min chunkSize inp.length := by
          simp only [List.length_take]
          omega
        simp only [List.length_append, hlt] at ihr
        omega
    | cons r rest =>
      cases r with
      | err e =>
        rw [spliceLoop_err]
        simp [Outcome.st]
      | ok n =>
        by_cases hk : min n (min chunkSize inp.length) = 0
        · rw [spliceLoop_ok_zero _ _ _ _ _ hk]
          simp [Outcome.st]
        · rw [spliceLoop_ok_step _ _ _ _ _ hk]
          have hki : min n (min chunkSize inp.length) ≤ inp.length := by
            have := Nat.min_le_right n (min chunkSize inp.length)
            have := Nat.min_le_right chunkSize inp.length
            omega
          have ihr := ih rest (inp.drop (min n (min chunkSize inp.length)))
            (by simp at hm ⊢; omega) chunkSize
            { s with
              spliceCalls := s.spliceCalls + 1,
              out := s.out ++ inp.take (min n (min chunkSize inp.length)),
              counter := s.counter + min n (min chunkSize inp.length),
              trace := s.trace ++ [s.counter + min n (min chunkSize inp.length)] }
          have hlt : (inp.take (min n (min chunkSize inp.length))).length
              = min n (min chunkSize inp.length) := by
            simp only [List.length_take]
            omega
          simp only [List.length_append, hlt] at ihr
          omega

theorem rwLoop_traceInv :
    ∀ (N : Nat) (rsched : List Resp) (inp : List Nat),
    rsched.length + inp.length ≤ N →
    ∀ (chunkSize : Nat) (buffer : List Nat) (wsched : List Resp) (s : St),
    TraceInv s → TraceInv ((rwLoop chunkSize buffer inp rsched wsched s).st) := by
  intro N
  induction N with
  | zero =>
    intro rsched inp hm chunkSize buffer wsched s hs
    have h1 : rsched = [] := by
      cases rsched with
      | nil => rfl
      | cons a l => simp at hm
    have h2 : inp = [] := by
      cases inp with
      | nil => rfl
      | cons a l => simp at hm
    subst h1; subst h2
    rw [rwLoop_nil_zero _ _ _ _ _ (by simp)]
    exact hs
  | succ N ih =>
    intro rsched inp hm chunkSize buffer wsched s hs
    cases rsched with
    | nil =>
      by_cases hk : min chunkSize inp.length = 0
      · rw [rwLoop_nil_zero _ _ _ _ _ hk]
        exact hs
      · rw [rwLoop_nil_step _ _ _ _ _ hk]
        have hwt := writeLoop_traceInv wsched
          (inp.take (min chunkSize inp.length) ++ buffer.drop (min chunkSize inp.length))
          0 (min chunkSize inp.length) { s with readCalls := s.readCalls + 1 } hs
        cases hw : writeLoop
            (inp.take (min chunkSize inp.length) ++ buffer.drop (min chunkSize inp.length))
            0 (min chunkSize inp.length) wsched
            { s with readCalls := s.readCalls + 1 } with
        | ok wsched2 s2 =>
          rw [hw] at hwt
          exact ih [] (inp.drop (min chunkSize inp.length)) (by simp; omega) chunkSize
            _ wsched2 s2 hwt
        | ioError e s2 =>
          rw [hw] at hwt
          exact hwt
        | panicked s2 =>
          rw [hw] at hwt
          exact hwt
    | cons r rest =>
      cases r with
      | err e =>
        rw [rwLoop_err]
        exact hs
      | ok n =>
        by_cases hk : min n (min chunkSize inp.length) = 0
        · rw [rwLoop_ok_zero _ _ _ _ _ _ _ hk]
          exact hs
        · rw [rwLoop_ok_step _ _ _ _ _ _ _ hk]
          have hwt := writeLoop_traceInv wsched
            (inp.take (min n (min chunkSize inp.length)) ++
              buffer.drop (min n (min chunkSize inp.length)))
            0 (min n (min chunkSize inp.length)) { s with readCalls := s.readCalls + 1 } hs
          cases hw : writeLoop
              (inp.take (min n (min chunkSize inp.length)) ++
                buffer.drop (min n (min chunkSize inp.length)))
              0 (min n (min chunkSize inp.length)) wsched
              { s with readCalls := s.readCalls + 1 } with
          | ok wsched2 s2 =>
            rw [hw] at hwt
            exact ih rest (inp.drop (min n (min chunkSize inp.length)))
              (by simp at hm ⊢; omega) chunkSize _ wsched2 s2 hwt
          | ioError e s2 =>
            rw [hw] at hwt
            exact hwt
          | panicked s2 =>
            rw [hw] at hwt
            exact hwt

theorem spliceLoop_traceInv :
    ∀ (N : Nat) (sched : List Resp) (inp : List Nat),
    sched.length + inp.length ≤ N →
    ∀ (chunkSize : Nat) (s : St),
    TraceInv s → TraceInv ((spliceLoop chunkSize inp sched s).st) := by
  intro N
  induction N with
  | zero =>
    intro sched inp hm chunkSize s hs
    have h1 : sched = [] := by
      cases sched with
      | nil => rfl
      | cons a l => simp at hm
    have h2 : inp = [] := by
      cases inp with
      | nil => rfl
      | cons a l => simp at hm
    subst h1; subst h2
    rw [spliceLoop_nil_zero _ _ _ (by simp)]
    exact hs
  | succ N ih =>
    intro sched inp hm chunkSize s hs
    cases sched with
    | nil =>
      by_cases hk : min chunkSize inp.length = 0
      · rw [spliceLoop_nil_zero _ _ _ hk]
        exact hs
      · rw [spliceLoop_nil_step _ _ _ hk]
        have hki : min chunkSize inp.length ≤ inp.length := Nat.min_le_right _ _
        exact ih [] (inp.drop (min chunkSize inp.length)) (by simp; omega) chunkSize _
          (traceInv_snoc (min chunkSize inp.length) hs.1 hs.2)
    | cons r rest =>
      cases r with
      | err e =>
        rw [spliceLoop_err]
        exact hs
      | ok n =>
        by_cases hk : min n (min chunkSize inp.length) = 0
        · rw [spliceLoop_ok_zero _ _ _ _ _ hk]
          exact hs
        · rw [spliceLoop_ok_step _ _ _ _ _ hk]
          have hki : min n (min chunkSize inp.length) ≤ inp.length := by
            have := Nat.min_le_right n (min chunkSize inp.length)
            have := Nat.min_le_right chunkSize inp.length
            omega
          exact ih rest (inp.drop (min n (min chunkSize inp.length)))
            (by simp at hm ⊢; omega) chunkSize _
            (traceInv_snoc (min n (min chunkSize inp.length)) hs.1 hs.2)

/-! ### The slice-bounds panic is unreachable in `rw_copy` -/

theorem rwLoop_noPanic :
    ∀ (N : Nat) (rsched : List Resp) (inp : List Nat),
    rsched.length + inp.length ≤ N →
    ∀ (chunkSize : Nat) (buffer : List Nat) (wsched : List Resp) (s : St),
    buffer.length = chunkSize →
    (rwLoop chunkSize buffer inp rsched wsched s).isPanic = false := by
  intro N
  induction N with
  | zero =>
    intro rsched inp hm chunkSize buffer wsched s hb
    have h1 : rsched = [] := by
      cases rsched with
      | nil => rfl
      | cons a l => simp at hm
    have h2 : inp = [] := by
      cases inp with
      | nil => rfl
      | cons a l => simp at hm
    subst h1; subst h2
    rw [rwLoop_nil_zero _ _ _ _ _ (by simp)]
    rfl
  | succ N ih =>
    intro rsched inp hm chunkSize buffer wsched s hb
    cases rsched with
    | nil =>
      by_cases hk : min chunkSize inp.length = 0
      · rw [rwLoop_nil_zero _ _ _ _ _ hk]
        rfl
      · rw [rwLoop_nil_step _ _ _ _ _ hk]
        have hki : min chunkSize inp.length ≤ inp.length := Nat.min_le_right _ _
        have hkc : min chunkSize inp.length ≤ chunkSize := Nat.min_le_left _ _
        have hlen2 : (inp.take (min chunkSize inp.length) ++
            buffer.drop (min chunkSize inp.length)).length = chunkSize := by
          simp
          omega
        have hnp := writeLoop_noPanic wsched
          (inp.take (min chunkSize inp.length) ++ buffer.drop (min chunkSize inp.length))
          0 (min chunkSize inp.length) { s with readCalls := s.readCalls + 1 }
          (by omega)
        cases hw : writeLoop
            (inp.take (min chunkSize inp.length) ++ buffer.drop (min chunkSize inp.length))
            0 (min chunkSize inp.length) wsched
            { s with readCalls := s.readCalls + 1 } with
        | ok wsched2 s2 =>
          exact ih [] (inp.drop (min chunkSize inp.length)) (by simp; omega) chunkSize
            _ wsched2 s2 hlen2
        | ioError e s2 => rfl
        | panicked s2 =>
          rw [hw] at hnp
          exact absurd hnp (by simp [WOut.isPanic])
    | cons r rest =>
      cases r with
      | err e =>
        rw [rwLoop_err]
        rfl
      | ok n =>
        by_cases hk : min n (min chunkSize inp.length) = 0
        · rw [rwLoop_ok_zero _ _ _ _ _ _ _ hk]
          rfl
        · rw [rwLoop_ok_step _ _ _ _ _ _ _ hk]
          have hki : min n (min chunkSize inp.length) ≤ inp.length := by
            have := Nat.min_le_right n (min chunkSize inp.length)
            have := Nat.min_le_right chunkSize inp.length
            omega
          have hkc : min n (min chunkSize inp.length) ≤ chunkSize := by
            have := Nat.min_le_right n (min chunkSize inp.length)
            have := Nat.min_le_left chunkSize inp.length
            omega
          have hlen2 : (inp.take (min n (min chunkSize inp.length)) ++
              buffer.drop (min n (min chunkSize inp.length))).length = chunkSize := by
            simp
            omega
          have hnp := writeLoop_noPanic wsched
            (inp.take (min n (min chunkSize inp.length)) ++
              buffer.drop (min n (min chunkSize inp.length)))
            0 (min n (min chunkSize inp.length)) { s with readCalls := s.readCalls + 1 }
            (by omega)
          cases hw : writeLoop
              (inp.take (min n (min chunkSize inp.length)) ++
                buffer.drop (min n (min chunkSize inp.length)))
              0 (min n (min chunkSize inp.length)) wsched
              { s with readCalls := s.readCalls + 1 } with
          | ok wsched2 s2 =>
            exact ih rest (inp.drop (min n (min chunkSize inp.length)))
              (by simp at hm ⊢; omega) chunkSize _ wsched2 s2 hlen2
          | ioError e s2 => rfl
          | panicked s2 =>
            rw [hw] at hnp
            exact absurd hnp (by simp [WOut.isPanic])

/-! ### The claims -/

/-- C1.  Completeness: for every finite input stream of N bytes, a full run
of the Copy Engine (`rw_copy`, and `splice_copy` under the model of the
splice primitive) — i.e. a run whose environment responses are error-free
and report at least one byte each — returns success, writes an Output
stream byte-for-byte identical to the Input stream, and leaves the shared
Byte Counter (started at 0) with final value exactly N. -/
theorem c1_completeness (inp : List Nat) (chunkSize : Nat)
    (rsched wsched ssched : List Resp) (hcs : 1 ≤ chunkSize)
    (hr : rsched.all Resp.pos = true) (hw : wsched.all Resp.pos = true)
    (hs : ssched.all Resp.pos = true) :
    (∃ s2, rw_copy inp rsched wsched 0 chunkSize = .ok [] s2 ∧
      s2.out = inp ∧ s2.counter = inp.length) ∧
    (∃ s2, splice_copy inp ssched 0 chunkSize = .ok [] s2 ∧
      s2.out = inp ∧ s2.counter = inp.length) := by
  constructor
  · obtain ⟨s2, heq, hout, hcnt⟩ :=
      rwLoop_pos chunkSize hcs (rsched.length + inp.length) rsched inp le_rfl
        (List.replicate chunkSize 0) wsched (initSt 0) (by simp) hr hw
    exact ⟨s2, heq, by simpa [initSt] using hout, by simpa [initSt] using hcnt⟩
  · obtain ⟨s2, heq, hout, hcnt⟩ :=
      spliceLoop_pos chunkSize hcs (ssched.length + inp.length) ssched inp le_rfl
        (initSt 0) hs
    exact ⟨s2, heq, by simpa [initSt] using hout, by simpa [initSt] using hcnt⟩

/-- Witness for `c1_completeness`: a concrete three-byte run of both
strategies with chunk size 2 and partial-but-positive responses. -/
theorem c1_completeness_witness :
    (∃ s2, rw_copy [10, 20, 30] [.ok 2, .ok 9] [.ok 1, .ok 5] 0 2 = .ok [] s2 ∧
      s2.out = [10, 20, 30] ∧ s2.counter = 3) ∧
    (∃ s2, splice_copy [10, 20, 30] [.ok 1] 0 2 = .ok [] s2 ∧
      s2.out = [10, 20, 30] ∧ s2.counter = 3) :=
  c1_completeness [10, 20, 30] 2 [.ok 2, .ok 9] [.ok 1, .ok 5] [.ok 1]
    (by decide) (by decide) (by decide) (by decide)

/-- C2.  Fatal propagation with exact counter atomicity: any run of either
strategy that ends in an I/O error leaves the Byte Counter equal to
exactly the bytes delivered to Output by the calls that completed strictly
before the failing call (parts 1 and 2, from counter 0); a failing read,
write or splice call surfaces its error immediately, with no retry and no
state change beyond recording that the call was issued (parts 3-5); and in
`rw_copy` the counter is incremented once per individual completed write —
the trace of `fetch_add`s grows by exactly the number of write calls, not
once per chunk (part 6). -/
theorem c2_fatal_propagation :
    (∀ (inp : List Nat) (rsched wsched : List Resp) (chunkSize e : Nat)
        (inp2 : List Nat) (s2 : St),
      rw_copy inp rsched wsched 0 chunkSize = .ioError e inp2 s2 →
      s2.counter = s2.out.length) ∧
    (∀ (inp : List Nat) (sched : List Resp) (chunkSize e : Nat)
        (inp2 : List Nat) (s2 : St),
      splice_copy inp sched 0 chunkSize = .ioError e inp2 s2 →
      s2.counter = s2.out.length) ∧
    (∀ (chunkSize : Nat) (buffer inp : List Nat) (e : Nat)
        (rest wsched : List Resp) (s : St),
      rwLoop chunkSize buffer inp (.err e :: rest) wsched s =
        .ioError e inp { s with readCalls := s.readCalls + 1 }) ∧
    (∀ (buffer : List Nat) (offset read e : Nat) (rest : List Resp) (s : St),
      read ≠ 0 → ¬ buffer.length < offset + read →
      writeLoop buffer offset read (.err e :: rest) s =
        .ioError e { s with writeCalls := s.writeCalls + 1 }) ∧
    (∀ (chunkSize : Nat) (inp : List Nat) (e : Nat) (rest : List Resp) (s : St),
      spliceLoop chunkSize inp (.err e :: rest) s =
        .ioError e inp { s with spliceCalls := s.spliceCalls + 1 }) ∧
    (∀ (buffer : List Nat) (offset read : Nat) (wsched : List Resp) (s : St)
        (rest2 : List Resp) (s2 : St),
      writeLoop buffer offset read wsched s = .ok rest2 s2 →
      s2.trace.length + s.writeCalls = s.trace.length + s2.writeCalls) := by
  refine ⟨?_, ?_, ?_, ?_, ?_, ?_⟩
  · intro inp rsched wsched chunkSize e inp2 s2 h
    have hb := rwLoop_balance (rsched.length + inp.length) rsched inp le_rfl
      chunkSize (List.replicate chunkSize 0) wsched (initSt 0)
    rw [rw_copy] at h
    rw [h] at hb
    simpa [Outcome.st, initSt] using hb
  · intro inp sched chunkSize e inp2 s2 h
    have hb := spliceLoop_balance (sched.length + inp.length) sched inp le_rfl
      chunkSize (initSt 0)
    rw [splice_copy] at h
    rw [h] at hb
    simpa [Outcome.st, initSt] using hb
  · intro chunkSize buffer inp e rest wsched s
    exact rwLoop_err chunkSize buffer inp e rest wsched s
  · intro buffer offset read e rest s h1 h2
    exact writeLoop_err buffer offset read e rest s h1 h2
  · intro chunkSize inp e rest s
    exact spliceLoop_err chunkSize inp e rest s
  · intro buffer offset read wsched s rest2 s2 h
    exact writeLoop_calls wsched buffer offset read s rest2 s2 h

/-- Witness for `c2_fatal_propagation`: concrete failing (and completing)
calls for each conditional part. -/
theorem c2_fatal_propagation_witness :
    (St.mk [] 0 1 0 0 [] : St).counter = (St.mk [] 0 1 0 0 [] : St).out.length ∧
    (St.mk [] 0 0 0 1 [] : St).counter = (St.mk [] 0 0 0 1 [] : St).out.length ∧
    writeLoop [5] 0 1 [.err 7] (initSt 0) =
      .ioError 7 { initSt 0 with writeCalls := 1 } ∧
    (St.mk [5] 1 0 1 0 [1] : St).trace.length + (initSt 0).writeCalls =
      (initSt 0).trace.length + (St.mk [5] 1 0 1 0 [1] : St).writeCalls := by
  refine ⟨?_, ?_, ?_, ?_⟩
  · exact c2_fatal_propagation.1 [5] [.err 9] [] 1 9 [5] (St.mk [] 0 1 0 0 [])
      (by rw [rw_copy, rwLoop_err]; simp [initSt])
  · exact c2_fatal_propagation.2.1 [5] [.err 3] 1 3 [5] (St.mk [] 0 0 0 1 [])
      (by rw [splice_copy, spliceLoop_err]; simp [initSt])
  · exact c2_fatal_propagation.2.2.2.1 [5] 0 1 7 [] (initSt 0)
      (by decide) (by decide)
  · exact c2_fatal_propagation.2.2.2.2.2 [5] 0 1 [.ok 1] (initSt 0) []
      (St.mk [5] 1 0 1 0 [1]) rfl

/-- C3.  Partial-write handling: whenever the inner loop of `rw_copy` is
started on a chunk (with positive, error-free write responses, each
clamped to at most the requested length), it keeps issuing writes at a
running offset until the whole chunk is flushed: it returns success having
appended to Output exactly the chunk's bytes, in order, and having added
exactly the chunk's length to the counter. -/
theorem c3_partial_writes (buffer : List Nat) (offset read : Nat)
    (wsched : List Resp) (s : St)
    (hb : offset + read ≤ buffer.length) (hpos : wsched.all Resp.pos = true) :
    ∃ rest2 s2, writeLoop buffer offset read wsched s = .ok rest2 s2 ∧
      s2.out = s.out ++ slice buffer offset read ∧
      s2.counter = s.counter + read := by
  obtain ⟨rest2, s2, heq, _, hout, hcnt, _, _, _⟩ :=
    writeLoop_pos wsched buffer offset read s hb hpos
  exact ⟨rest2, s2, heq, hout, hcnt⟩

/-- Witness for `c3_partial_writes`: a three-byte chunk flushed through
writes of 2 and 1 bytes. -/
theorem c3_partial_writes_witness :
    ∃ rest2 s2, writeLoop [1, 2, 3] 0 3 [.ok 2, .ok 2] (initSt 0) = .ok rest2 s2 ∧
      s2.out = (initSt 0).out ++ slice [1, 2, 3] 0 3 ∧
      s2.counter = (initSt 0).counter + 3 :=
  c3_partial_writes [1, 2, 3] 0 3 [.ok 2, .ok 2] (initSt 0) (by decide) (by decide)

/-- C4.  Strategy equivalence: for the same input content and any positive
chunk size, `splice_copy` (under the model of the splice primitive, which
moves up to the requested number of bytes) and `rw_copy` both succeed and
produce identical Output content and the same final Byte Counter total,
for any error-free positive response schedules — whose differing shapes
are exactly the differing mid-run counter-update granularities. -/
theorem c4_strategy_equivalence (inp : List Nat) (chunkSize : Nat)
    (rsched wsched ssched : List Resp) (hcs : 1 ≤ chunkSize)
    (hr : rsched.all Resp.pos = true) (hw : wsched.all Resp.pos = true)
    (hs : ssched.all Resp.pos = true) :
    ∃ s1 s2, splice_copy inp ssched 0 chunkSize = .ok [] s1 ∧
      rw_copy inp rsched wsched 0 chunkSize = .ok [] s2 ∧
      s1.out = s2.out ∧ s1.counter = s2.counter := by
  obtain ⟨s1, h1, ho1, hc1⟩ :=
    spliceLoop_pos chunkSize hcs (ssched.length + inp.length) ssched inp le_rfl
      (initSt 0) hs
  obtain ⟨s2, h2, ho2, hc2⟩ :=
    rwLoop_pos chunkSize hcs (rsched.length + inp.length) rsched inp le_rfl
      (List.replicate chunkSize 0) wsched (initSt 0) (by simp) hr hw
  exact ⟨s1, s2, h1, h2, by rw [ho1, ho2], by rw [hc1, hc2]⟩

/-- Witness for `c4_strategy_equivalence`: both strategies on the same
four-byte input with chunk size 3 and different response granularities. -/
theorem c4_strategy_equivalence_witness :
    ∃ s1 s2, splice_copy [4, 5, 6, 7] [.ok 2, .ok 2] 0 3 = .ok [] s1 ∧
      rw_copy [4, 5, 6, 7] [.ok 3] [.ok 1, .ok 1] 0 3 = .ok [] s2 ∧
      s1.out = s2.out ∧ s1.counter = s2.counter :=
  c4_strategy_equivalence [4, 5, 6, 7] 3 [.ok 3] [.ok 1, .ok 1] [.ok 2, .ok 2]
    (by decide) (by decide) (by decide) (by decide)

/-- C5.  End-of-stream: in both strategies, a read / transfer call that
reports 0 bytes makes the loop return success at once: the returned state
differs from the state before the call only in the count of issued
read/splice calls — Output, the Byte Counter, the `fetch_add` trace and
the write-call count are untouched, so no further I/O is issued and the
counter is never updated for a zero-length result.  The four parts cover
the scheduled and the default (exhausted-schedule) read of both loops. -/
theorem c5_end_of_stream :
    (∀ (chunkSize : Nat) (buffer inp : List Nat) (n : Nat)
        (rest wsched : List Resp) (s : St),
      min n (min chunkSize inp.length) = 0 →
      rwLoop chunkSize buffer inp (.ok n :: rest) wsched s =
        .ok inp { s with readCalls := s.readCalls + 1 }) ∧
    (∀ (chunkSize : Nat) (inp : List Nat) (n : Nat) (rest : List Resp) (s : St),
      min n (min chunkSize inp.length) = 0 →
      spliceLoop chunkSize inp (.ok n :: rest) s =
        .ok inp { s with spliceCalls := s.spliceCalls + 1 }) ∧
    (∀ (chunkSize : Nat) (buffer inp : List Nat) (wsched : List Resp) (s : St),
      min chunkSize inp.length = 0 →
      rwLoop chunkSize buffer inp [] wsched s =
        .ok inp { s with readCalls := s.readCalls + 1 }) ∧
    (∀ (chunkSize : Nat) (inp : List Nat) (s : St),
      min chunkSize inp.length = 0 →
      spliceLoop chunkSize inp [] s =
        .ok inp { s with spliceCalls := s.spliceCalls + 1 }) := by
  refine ⟨?_, ?_, ?_, ?_⟩
  · intro chunkSize buffer inp n rest wsched s hk
    exact rwLoop_ok_zero chunkSize buffer inp n rest wsched s hk
  · intro chunkSize inp n rest s hk
    exact spliceLoop_ok_zero chunkSize inp n rest s hk
  · intro chunkSize buffer inp wsched s hk
    exact rwLoop_nil_zero chunkSize buffer inp wsched s hk
  · intro chunkSize inp s hk
    exact spliceLoop_nil_zero chunkSize inp s hk

/-- Witness for `c5_end_of_stream`: end-of-stream hit on an exhausted input
(default read) and on a scheduled zero-length transfer. -/
theorem c5_end_of_stream_witness :
    rwLoop 4 [0, 0, 0, 0] [] [] [] (St.mk [9] 1 1 1 0 [1]) =
      .ok [] { St.mk [9] 1 1 1 0 [1] with readCalls := 2 } ∧
    spliceLoop 4 [1, 2] [.ok 0] (initSt 0) =
      .ok [1, 2] { initSt 0 with spliceCalls := 1 } :=
  ⟨c5_end_of_stream.2.2.1 4 [0, 0, 0, 0] [] [] (St.mk [9] 1 1 1 0 [1]) (by decide),
    c5_end_of_stream.2.1 4 [1, 2] 0 [] (initSt 0) (by decide)⟩

/-- C6.  Counter monotonicity invariant: started at 0, the Byte Counter is
only ever changed by additive `fetch_add`s of non-negative amounts: in any
run of either strategy (any schedules, any chunk size) the sequence of
counter values after the successive `fetch_add`s never decreases starting
from 0, and the final counter is the last recorded value. -/
theorem c6_counter_monotone (inp : List Nat) (rsched wsched ssched : List Resp)
    (chunkSize : Nat) :
    (List.Chain' (· ≤ ·) (0 :: (rw_copy inp rsched wsched 0 chunkSize).st.trace) ∧
      (rw_copy inp rsched wsched 0 chunkSize).st.trace.getLastD 0 =
        (rw_copy inp rsched wsched 0 chunkSize).st.counter) ∧
    (List.Chain' (· ≤ ·) (0 :: (splice_copy inp ssched 0 chunkSize).st.trace) ∧
      (splice_copy inp ssched 0 chunkSize).st.trace.getLastD 0 =
        (splice_copy inp ssched 0 chunkSize).st.counter) := by
  constructor
  · exact rwLoop_traceInv (rsched.length + inp.length) rsched inp le_rfl
      chunkSize (List.replicate chunkSize 0) wsched (initSt 0)
      ⟨List.chain'_singleton 0, by simp [initSt]⟩
  · exact spliceLoop_traceInv (ssched.length + inp.length) ssched inp le_rfl
      chunkSize (initSt 0) ⟨List.chain'_singleton 0, by simp [initSt]⟩

/-- C7.  Reporter tick algorithm: on a tick whose loaded counter value
differs from the remembered one, the Reporter renders the rate
(current − last) / (1024 × 1024 × elapsed-tick-count) MiB/s (as the exact
rational its floating-point rendering approximates), resets the
elapsed-tick counter to 1 and remembers the new value; on a tick with an
unchanged value it increments the elapsed-tick counter and renders
nothing. -/
theorem c7_reporter_tick (st : RepState) (count : Nat) :
    (count ≠ st.last →
      reporterTick st count =
        ({ last := count, secs := 1 },
          some (((count - st.last : Nat) : ℚ) / (1024 * 1024 * (st.secs : ℚ))))) ∧
    (count = st.last →
      reporterTick st count = ({ st with secs := st.secs + 1 }, none)) := by
  constructor
  · intro h
    simp only [reporterTick, if_pos h]
    rw [div_div, div_div, ← mul_assoc]
  · intro h
    simp [reporterTick, h]

/-- Witness for `c7_reporter_tick`: one changed tick (1 MiB moved in one
tick) and one unchanged tick. -/
theorem c7_reporter_tick_witness :
    reporterTick { last := 0, secs := 1 } 1048576 =
      ({ last := 1048576, secs := 1 },
        some (((1048576 - 0 : Nat) : ℚ) / (1024 * 1024 * ((1 : Nat) : ℚ)))) ∧
    reporterTick { last := 5, secs := 2 } 5 = ({ last := 5, secs := 3 }, none) :=
  ⟨(c7_reporter_tick { last := 0, secs := 1 } 1048576).1 (by decide),
    (c7_reporter_tick { last := 5, secs := 2 } 5).2 rfl⟩

/-- C8.  Zero chunk size terminates cleanly: with `chunk_size = 0`,
`rw_copy` allocates a zero-length buffer, the first read into it reports 0
bytes (whatever the environment's first response offers), and the run
returns success immediately: one read call, no write calls, Output empty
and the Byte Counter unchanged at 0. -/
theorem c8_zero_chunk (inp : List Nat) (wsched : List Resp) (n : Nat)
    (rest : List Resp) :
    rw_copy inp [] wsched 0 0 = .ok inp { initSt 0 with readCalls := 1 } ∧
    rw_copy inp (.ok n :: rest) wsched 0 0 = .ok inp { initSt 0 with readCalls := 1 } := by
  constructor
  · rw [rw_copy, rwLoop_nil_zero _ _ _ _ _ (by simp)]
    simp [initSt]
  · rw [rw_copy, rwLoop_ok_zero _ _ _ _ _ _ _ (by simp)]
    simp [initSt]

/-- C9.  Conditional termination of the flush loop: when every write
response reports at least one byte (and the model already clamps each to
at most the remaining length), the inner loop of `rw_copy` finishes the
chunk successfully within at most `read` write calls; and the loop has no
guard against a write reporting 0 bytes — in the concrete run below two
zero-byte writes are simply followed by further write calls (three calls
for a one-byte chunk), so termination rests on the positivity
precondition alone. -/
theorem c9_flush_loop_termination :
    (∀ (buffer : List Nat) (offset read : Nat) (wsched : List Resp) (s : St),
      offset + read ≤ buffer.length → wsched.all Resp.pos = true →
      ∃ rest2 s2, writeLoop buffer offset read wsched s = .ok rest2 s2 ∧
        s2.writeCalls ≤ s.writeCalls + read) ∧
    writeLoop [5] 0 1 [.ok 0, .ok 0] (initSt 0) =
      .ok [] (St.mk [5] 1 0 3 0 [0, 0, 1]) := by
  constructor
  · intro buffer offset read wsched s hb hpos
    obtain ⟨rest2, s2, heq, _, _, _, hwc, _, _⟩ :=
      writeLoop_pos wsched buffer offset read s hb hpos
    exact ⟨rest2, s2, heq, hwc⟩
  · rfl

/-- Witness for `c9_flush_loop_termination`: a two-byte chunk flushed by
single-byte writes, within the two-call bound. -/
theorem c9_flush_loop_termination_witness :
    ∃ rest2 s2, writeLoop [7, 8] 0 2 [.ok 1] (initSt 0) = .ok rest2 s2 ∧
      s2.writeCalls ≤ (initSt 0).writeCalls + 2 :=
  c9_flush_loop_termination.1 [7, 8] 0 2 [.ok 1] (initSt 0) (by decide) (by decide)

/-- C10.  In-bounds buffer slicing: since every write response is clamped
to the bytes remaining in the chunk (the `io::Write` contract), the
running offset and remaining count satisfy `offset + read ≤ chunk_size`
at every iteration of the inner loop, so the bounds check of
`buffer[offset..offset + read]` never fails: no run of `rw_copy`, under
any schedules, any start counter and any chunk size, ends in the panic
outcome. -/
theorem c10_no_panic (inp : List Nat) (rsched wsched : List Resp)
    (c0 chunkSize : Nat) :
    (rw_copy inp rsched wsched c0 chunkSize).isPanic = false :=
  rwLoop_noPanic (rsched.length + inp.length) rsched inp le_rfl chunkSize
    (List.replicate chunkSize 0) wsched (initSt c0) (by simp)

end Rpv
